import Mathlib

/-!
Verification development for the konfig configuration library.

The Go source is embedded shallowly: Go `interface{}` values that occur in a
parsed configuration document become the inductive type `GoValue`; Go maps
(`map[string]interface{}`) become association lists with Go-map lookup and
insert semantics; fallible Go functions return `Except`/`Option`.  Each
definition keeps the name of the Go function it embeds.
-/

namespace Konfig

/-- A Go `interface{}` value as it occurs in a parsed YAML document: the
scalar kinds produced by the YAML decoder, mappings (`vMap none` is a typed
nil Go map, which only `validateYAMLComplexity`/`processConfig` distinguish
from an empty one), and sequences. -/
inductive GoValue where
  | vNull
  | vStr (s : String)
  | vInt (n : Int)
  | vBool (b : Bool)
  | vMap (entries : Option (List (String × GoValue)))
  | vSeq (items : List GoValue)
deriving Repr

/-- Decimal digit character, as produced by Go integer formatting. -/
def digitChar (n : Nat) : Char := Char.ofNat (48 + n)

/-- Decimal digits of a natural number, most significant first. -/
def natDigits (n : Nat) : List Char :=
  if n < 10 then [digitChar n]
  else natDigits (n / 10) ++ [digitChar (n % 10)]
termination_by n
decreasing_by exact Nat.div_lt_self (by omega) (by omega)

/-- Decimal rendering of a Go `int`, sign included. -/
def intChars (i : Int) : List Char :=
  if i < 0 then '-' :: natDigits i.natAbs else natDigits i.toNat

mutual
/-- The string Go `fmt.Sprintf` with verb `v` produces for an `interface{}`
value: `<nil>` for nil, the string itself, decimal integers, `true`/`false`,
space-joined bracketed sequences, and `map[k:v ...]` for mappings.  (Go's
`fmt` prints map entries in sorted key order; entries are rendered here in
list order, which coincides for the empty and singleton mappings — no claim
below evaluates the rendering of a larger mapping.) -/
def goToStr : GoValue → String
  | .vNull => "<nil>"
  | .vStr s => s
  | .vInt n => String.mk (intChars n)
  | .vBool true => "true"
  | .vBool false => "false"
  | .vMap none => "map[]"
  | .vMap (some es) => "map[" ++ goEntriesStr es ++ "]"
  | .vSeq items => "[" ++ goItemsStr items ++ "]"

/-- Space-joined `key:value` renderings of map entries. -/
def goEntriesStr : List (String × GoValue) → String
  | [] => ""
  | [(k, v)] => k ++ ":" ++ goToStr v
  | (k, v) :: rest => k ++ ":" ++ goToStr v ++ " " ++ goEntriesStr rest

/-- Space-joined renderings of sequence elements. -/
def goItemsStr : List GoValue → String
  | [] => ""
  | [v] => goToStr v
  | v :: rest => goToStr v ++ " " ++ goItemsStr rest
end

/-- Lookup in a Go map modelled as an association list (`m[k]`). -/
def mapLookup (m : List (String × GoValue)) (k : String) : Option GoValue :=
  match m with
  | [] => none
  | (k1, v1) :: rest => if k1 = k then some v1 else mapLookup rest k

/-- Go map assignment `m[k] = v`: replace the binding of `k` if present,
otherwise add one. -/
def mapInsert (m : List (String × GoValue)) (k : String) (v : GoValue) :
    List (String × GoValue) :=
  match m with
  | [] => [(k, v)]
  | (k1, v1) :: rest => if k1 = k then (k, v) :: rest else (k1, v1) :: mapInsert rest k v

/-- Whether key `k` is present in the map. -/
def mapContains (m : List (String × GoValue)) (k : String) : Bool :=
  (mapLookup m k).isSome

/-- `mergeConfigs` (konfig.go): the result starts as a copy of the base
map's entries, then every entry of the override map is written on top,
key-for-key.  (Copying a Go map and then assigning into the copy is, on an
association list standing for a map, a fold of assignments over the
override entries starting from the base.) -/
def mergeConfigs (base override : List (String × GoValue)) :
    List (String × GoValue) :=
  override.foldl (fun acc kv => mapInsert acc kv.1 kv.2) base

theorem mapLookup_mapInsert_self (m : List (String × GoValue)) (k : String)
    (v : GoValue) : mapLookup (mapInsert m k v) k = some v := by
  induction m with
  | nil => simp [mapInsert, mapLookup]
  | cons hd tl ih =>
      obtain ⟨k1, v1⟩ := hd
      by_cases h : k1 = k
      · simp [mapInsert, h, mapLookup]
      · simp [mapInsert, h, mapLookup, ih]

theorem mapLookup_mapInsert_ne (m : List (String × GoValue)) {k k1 : String}
    (v : GoValue) (h : k1 ≠ k) :
    mapLookup (mapInsert m k v) k1 = mapLookup m k1 := by
  have h' : k ≠ k1 := Ne.symm h
  induction m with
  | nil => simp [mapInsert, mapLookup, h']
  | cons hd tl ih =>
      obtain ⟨k2, v2⟩ := hd
      by_cases h2 : k2 = k
      · subst h2
        simp [mapInsert, mapLookup, h']
      · simp [mapInsert, h2, mapLookup, ih]

theorem mapLookup_eq_none_of_not_mem {m : List (String × GoValue)} {k : String}
    (h : k ∉ m.map Prod.fst) : mapLookup m k = none := by
  induction m with
  | nil => simp [mapLookup]
  | cons hd tl ih =>
      obtain ⟨k1, v1⟩ := hd
      simp only [List.map_cons, List.mem_cons] at h
      push_neg at h
      simp [mapLookup, Ne.symm h.1, ih h.2]

/-- The merged map looks up to the override's value when the override binds
the key, and to the base's value otherwise. -/
theorem mergeConfigs_lookup (base override : List (String × GoValue))
    (hnd : (override.map Prod.fst).Nodup) (k : String) :
    mapLookup (mergeConfigs base override) k =
      match mapLookup override k with
      | some v => some v
      | none => mapLookup base k := by
  induction override generalizing base with
  | nil => simp [mergeConfigs, mapLookup]
  | cons hd tl ih =>
      obtain ⟨k1, v1⟩ := hd
      simp only [List.map_cons, List.nodup_cons] at hnd
      have step : mergeConfigs base ((k1, v1) :: tl) =
          mergeConfigs (mapInsert base k1 v1) tl := by
        simp [mergeConfigs, List.foldl_cons]
      rw [step, ih _ hnd.2]
      by_cases h : k1 = k
      · subst h
        have : mapLookup tl k1 = none :=
          mapLookup_eq_none_of_not_mem hnd.1
        simp [mapLookup, this, mapLookup_mapInsert_self]
      · simp only [mapLookup, if_neg h]
        cases htl : mapLookup tl k with
        | some v => simp
        | none => simp [mapLookup_mapInsert_ne base v1 (fun hh => h hh.symm)]

/-- Claim C1: profile merge is a right-biased union.  Provided the override
map has unique keys (a Go map invariant), every key of the merged namespace
looks up to the override's value when the override binds the key and to the
base's value otherwise, and a key is present in the merged namespace exactly
when it is present in the base or in the override — merge never drops base
keys absent from the override and never invents keys. -/
theorem mergeConfigs_right_biased_union (base override : List (String × GoValue))
    (hnd : (override.map Prod.fst).Nodup) (k : String) :
    (mapLookup (mergeConfigs base override) k =
      match mapLookup override k with
      | some v => some v
      | none => mapLookup base k) ∧
    mapContains (mergeConfigs base override) k =
      (mapContains base k || mapContains override k) := by
  refine ⟨mergeConfigs_lookup base override hnd k, ?_⟩
  have h := mergeConfigs_lookup base override hnd k
  unfold mapContains
  rw [h]
  cases hov : mapLookup override k <;> cases hb : mapLookup base k <;> simp

/-- Witness for C1 at a concrete pair of namespaces: base
`{db.host: a}`, override `{db.host: b, db.port: 5432}`. -/
theorem mergeConfigs_right_biased_union_witness :
    ((([("db.host", GoValue.vStr "b"), ("db.port", GoValue.vInt 5432)] :
        List (String × GoValue)).map Prod.fst).Nodup) ∧
    ((mapLookup (mergeConfigs [("db.host", GoValue.vStr "a")]
        [("db.host", GoValue.vStr "b"), ("db.port", GoValue.vInt 5432)]) "db.host" =
      match mapLookup [("db.host", GoValue.vStr "b"), ("db.port", GoValue.vInt 5432)]
          "db.host" with
      | some v => some v
      | none => mapLookup [("db.host", GoValue.vStr "a")] "db.host") ∧
    mapContains (mergeConfigs [("db.host", GoValue.vStr "a")]
        [("db.host", GoValue.vStr "b"), ("db.port", GoValue.vInt 5432)]) "db.host" =
      (mapContains [("db.host", GoValue.vStr "a")] "db.host" ||
       mapContains [("db.host", GoValue.vStr "b"), ("db.port", GoValue.vInt 5432)]
        "db.host")) :=
  ⟨by decide, mergeConfigs_right_biased_union _ _ (by decide) "db.host"⟩

/-! ### Interpolation engine

`processEnvSubstitutions` (yaml_parser.go) rewrites each value's string
rendering with the regular expression pattern for placeholders: a dollar
sign and opening brace, a nonempty name group of characters other than the
closing brace and the colon, an optional colon-introduced default group of
characters other than the closing brace, and the closing brace.  The
rewriting below is that regular expression replacement made explicit:
leftmost match, replace, continue after the match. -/

/-- Characters admitted in the name group of the placeholder pattern. -/
def isNameChar (c : Char) : Bool := c != '}' && c != ':'

/-- Characters admitted in the default group of the placeholder pattern. -/
def isDefaultChar (c : Char) : Bool := c != '}'

/-- Attempt to match the placeholder body directly after a dollar sign and
an opening brace: on success, the name group, the optional default group
and the input after the closing brace. -/
def matchPlaceholder (cs : List Char) :
    Option (List Char × Option (List Char) × List Char) :=
  if (cs.takeWhile isNameChar).isEmpty then none
  else
    match cs.dropWhile isNameChar with
    | '}' :: r => some (cs.takeWhile isNameChar, none, r)
    | ':' :: r =>
        match r.dropWhile isDefaultChar with
        | '}' :: r2 => some (cs.takeWhile isNameChar, some (r.takeWhile isDefaultChar), r2)
        | _ => none
    | _ => none

theorem dropWhile_length_le (p : Char → Bool) (l : List Char) :
    (l.dropWhile p).length ≤ l.length := by
  induction l with
  | nil => simp
  | cons c rest ih =>
      by_cases h : p c
      · rw [List.dropWhile_cons_of_pos h]
        exact Nat.le_succ_of_le ih
      · rw [List.dropWhile_cons_of_neg h]

theorem matchPlaceholder_rest_lt {cs name : List Char} {dflt : Option (List Char)}
    {r : List Char} (h : matchPlaceholder cs = some (name, dflt, r)) :
    r.length < cs.length := by
  unfold matchPlaceholder at h
  split at h
  · exact absurd h (by simp)
  · split at h
    · rename_i heq
      simp only [Option.some.injEq, Prod.mk.injEq] at h
      obtain ⟨-, -, h3⟩ := h
      subst h3
      have hlen := dropWhile_length_le isNameChar cs
      rw [heq] at hlen
      simp at hlen
      omega
    · rename_i r1 heq
      split at h
      · rename_i heq2
        simp only [Option.some.injEq, Prod.mk.injEq] at h
        obtain ⟨-, -, h3⟩ := h
        subst h3
        have hlen1 := dropWhile_length_le isNameChar cs
        rw [heq] at hlen1
        have hlen2 := dropWhile_length_le isDefaultChar r1
        rw [heq2] at hlen2
        simp at hlen1 hlen2
        omega
      · exact absurd h (by simp)
    · exact absurd h (by simp)

/-- Resolution of one matched placeholder, as the replacement callback in
processEnvSubstitutions: the environment value when it is nonempty,
otherwise the default group (the empty string when no default group was
present).  `env` is the process environment as read by os.Getenv; an unset
variable reads as the empty string. -/
def resolveMatch (env : String → String) (name : List Char)
    (dflt : Option (List Char)) : List Char :=
  if env (String.mk name) ≠ "" then (env (String.mk name)).data
  else dflt.getD []

/-- The string rewriting processEnvSubstitutions performs on one rendered
value: scan left to right, at each dollar-brace try to match the
placeholder pattern; on a match emit the resolution and continue after the
closing brace, otherwise copy the character. -/
def substChars (env : String → String) : List Char → List Char
  | [] => []
  | '$' :: '{' :: rest =>
      match h : matchPlaceholder rest with
      | some (name, dflt, r) => resolveMatch env name dflt ++ substChars env r
      | none => '$' :: substChars env ('{' :: rest)
  | c :: rest => c :: substChars env rest
termination_by l => l.length
decreasing_by
  · have := matchPlaceholder_rest_lt h
    simp only [List.length_cons]
    omega
  · simp only [List.length_cons]
    omega
  · simp only [List.length_cons]
    omega

/-- enrichValue (loader.go): the mapping function os.Expand applies to the
text found between a dollar-brace and the matching closing brace.  An empty
reference yields the empty string; without a colon the (possibly empty)
environment value is returned, warning when it is empty; with a colon, an
empty name falls back to the default segment with a warning, and otherwise
the environment value wins when nonempty, the default segment otherwise.
The Boolean records whether a diagnostic warning was emitted. -/
def enrichValue (env : String → String) (value : String) : String × Bool :=
  if value = "" then ("", false)
  else
    match value.data.dropWhile (fun c => c != ':') with
    | [] =>
        (env value, env value = "")
    | _ :: suffix =>
        let key := String.mk (value.data.takeWhile (fun c => c != ':'))
        if key = "" then (String.mk suffix, true)
        else if env key ≠ "" then (env key, false)
        else (String.mk suffix, false)

theorem substChars_nil (env : String → String) : substChars env [] = [] := by
  unfold substChars
  rfl

theorem substChars_cons_ne_dollar (env : String → String) {c : Char}
    (rest : List Char) (hc : c ≠ '$') :
    substChars env (c :: rest) = c :: substChars env rest := by
  rw [substChars.eq_def]
  split
  · rename_i heq
    exact absurd heq (by simp)
  · rename_i rest2 heq
    injection heq with h1 h2
    exact absurd h1 hc
  · rename_i x c2 tl h1 h2
    injection h2 with hc2 ht2
    subst hc2
    subst ht2
    rfl

theorem substChars_dollar_match (env : String → String) {rest name : List Char}
    {dflt : Option (List Char)} {r : List Char}
    (h : matchPlaceholder rest = some (name, dflt, r)) :
    substChars env ('$' :: '{' :: rest) =
      resolveMatch env name dflt ++ substChars env r := by
  rw [substChars.eq_def]
  split
  · rename_i heq
    exact absurd heq (by simp)
  · rename_i x rest2 heq
    injection heq with h1 h2
    injection h2 with h3 h4
    subst h4
    split
    · rename_i name2 dflt2 r2 heq2
      rw [h] at heq2
      simp only [Option.some.injEq, Prod.mk.injEq] at heq2
      obtain ⟨ha, hb, hc2⟩ := heq2
      subst ha
      subst hb
      subst hc2
      rfl
    · rename_i heq2
      rw [h] at heq2
      exact absurd heq2 (by simp)
  · rename_i x c2 tl hcond heq
    injection heq with h1 h2
    exact absurd (hcond rest h1.symm h2.symm) (fun f => f)

theorem substChars_dollar_nomatch (env : String → String) {rest : List Char}
    (h : matchPlaceholder rest = none) :
    substChars env ('$' :: '{' :: rest) = '$' :: substChars env ('{' :: rest) := by
  rw [substChars.eq_def]
  split
  · rename_i heq
    exact absurd heq (by simp)
  · rename_i x rest2 heq
    injection heq with h1 h2
    injection h2 with h3 h4
    subst h4
    split
    · rename_i name2 dflt2 r2 heq2
      rw [h] at heq2
      exact absurd heq2 (by simp)
    · rfl
  · rename_i x c2 tl hcond heq
    injection heq with h1 h2
    exact absurd (hcond rest h1.symm h2.symm) (fun f => f)

theorem substChars_no_dollar (env : String → String) {l : List Char}
    (h : ∀ c ∈ l, c ≠ '$') : substChars env l = l := by
  induction l with
  | nil => exact substChars_nil env
  | cons c tl ih =>
      rw [substChars_cons_ne_dollar env tl (h c (by simp))]
      rw [ih (fun d hd => h d (by simp [hd]))]

theorem substChars_append_no_dollar (env : String → String) {p : List Char}
    (hp : ∀ c ∈ p, c ≠ '$') (rest : List Char) :
    substChars env (p ++ rest) = p ++ substChars env rest := by
  induction p with
  | nil => simp
  | cons c tl ih =>
      rw [List.cons_append, substChars_cons_ne_dollar env _ (hp c (by simp))]
      rw [ih (fun d hd => hp d (by simp [hd]))]
      rfl

theorem takeWhile_append_of_all (p : Char → Bool) {l1 : List Char}
    (h : ∀ c ∈ l1, p c = true) (l2 : List Char) :
    (l1 ++ l2).takeWhile p = l1 ++ l2.takeWhile p := by
  induction l1 with
  | nil => simp
  | cons c tl ih =>
      rw [List.cons_append, List.takeWhile_cons_of_pos (h c (by simp))]
      rw [ih (fun d hd => h d (by simp [hd]))]
      rfl

theorem dropWhile_append_of_all (p : Char → Bool) {l1 : List Char}
    (h : ∀ c ∈ l1, p c = true) (l2 : List Char) :
    (l1 ++ l2).dropWhile p = l2.dropWhile p := by
  induction l1 with
  | nil => simp
  | cons c tl ih =>
      rw [List.cons_append, List.dropWhile_cons_of_pos (h c (by simp))]
      exact ih (fun d hd => h d (by simp [hd]))

theorem matchPlaceholder_name_default {X d : List Char} (s : List Char)
    (hX : X ≠ []) (hXc : ∀ c ∈ X, isNameChar c = true)
    (hd : ∀ c ∈ d, isDefaultChar c = true) :
    matchPlaceholder (X ++ ':' :: (d ++ '}' :: s)) = some (X, some d, s) := by
  have ht : (X ++ ':' :: (d ++ '}' :: s)).takeWhile isNameChar = X := by
    rw [takeWhile_append_of_all isNameChar hXc]
    rw [List.takeWhile_cons_of_neg (by simp [isNameChar])]
    simp
  have hdr : (X ++ ':' :: (d ++ '}' :: s)).dropWhile isNameChar =
      ':' :: (d ++ '}' :: s) := by
    rw [dropWhile_append_of_all isNameChar hXc]
    rw [List.dropWhile_cons_of_neg (by simp [isNameChar])]
  have ht2 : (d ++ '}' :: s).takeWhile isDefaultChar = d := by
    rw [takeWhile_append_of_all isDefaultChar hd]
    rw [List.takeWhile_cons_of_neg (by simp [isDefaultChar])]
    simp
  have hd2 : (d ++ '}' :: s).dropWhile isDefaultChar = '}' :: s := by
    rw [dropWhile_append_of_all isDefaultChar hd]
    rw [List.dropWhile_cons_of_neg (by simp [isDefaultChar])]
  unfold matchPlaceholder
  rw [ht, hdr]
  simp only [hd2, ht2]
  simp [hX]

/-- Claim C2: for a scalar containing the placeholder pattern with name `X`
and default segment `d`, written after any dollar-free text `p` and before
any remaining text `s`: when the environment sets `X` to a nonempty value
the substitution is that value regardless of `d`; when `X` is unset or set
to the empty string the substitution is the literal default segment `d`,
even when `d` is empty.  The first conjunct is the regex rewriting of
processEnvSubstitutions (yaml_parser.go); the second is the os.Expand
mapping enrichValue (loader.go) applied to the placeholder text. -/
theorem interpolation_default_semantics (env : String → String)
    (p X d s : List Char)
    (hp : ∀ c ∈ p, c ≠ '$')
    (hX : X ≠ []) (hXc : ∀ c ∈ X, isNameChar c = true)
    (hd : ∀ c ∈ d, isDefaultChar c = true) :
    substChars env (p ++ '$' :: '{' :: (X ++ ':' :: (d ++ '}' :: s))) =
      p ++ (if env (String.mk X) = "" then d else (env (String.mk X)).data)
        ++ substChars env s ∧
    enrichValue env (String.mk (X ++ ':' :: d)) =
      ((if env (String.mk X) = "" then String.mk d else env (String.mk X)),
        false) := by
  constructor
  · rw [substChars_append_no_dollar env hp]
    rw [substChars_dollar_match env (matchPlaceholder_name_default s hX hXc hd)]
    by_cases henv : env (String.mk X) = ""
    · simp [resolveMatch, henv]
    · simp [resolveMatch, henv]
  · have hXcolon : ∀ c ∈ X, (c != ':') = true := by
      intro c hc
      have := hXc c hc
      simp [isNameChar] at this
      simp [this.2]
    have hne : String.mk (X ++ ':' :: d) ≠ "" := by
      intro hcontr
      have := congrArg String.data hcontr
      cases X <;> simp_all
    have hdata : (String.mk (X ++ ':' :: d)).data = X ++ ':' :: d := rfl
    have hdrop : (X ++ ':' :: d).dropWhile (fun c => c != ':') = ':' :: d := by
      rw [dropWhile_append_of_all _ hXcolon]
      rw [List.dropWhile_cons_of_neg (by simp)]
    have htake : (X ++ ':' :: d).takeWhile (fun c => c != ':') = X := by
      rw [takeWhile_append_of_all _ hXcolon]
      rw [List.takeWhile_cons_of_neg (by simp)]
      simp
    have hkey : String.mk X ≠ "" := by
      intro hcontr
      have := congrArg String.data hcontr
      cases X <;> simp_all
    unfold enrichValue
    rw [if_neg hne]
    simp only [hdata, hdrop, htake]
    rw [if_neg hkey]
    by_cases henv : env (String.mk X) = ""
    · simp [henv]
    · simp [henv]

/-- Witness for C2: placeholder name HOST with default fallback, once
against an environment that sets HOST and once against the empty
environment. -/
theorem interpolation_default_semantics_witness :
    ((substChars (fun k => if k = "HOST" then "h1" else "")
        ("a=".data ++ '$' :: '{' :: ("HOST".data ++ ':' :: ("fb".data ++ '}' :: [])))
        = "a=".data ++ "h1".data ++ substChars (fun k => if k = "HOST" then "h1" else "") []) ∧
      (substChars (fun _ => "")
        ("a=".data ++ '$' :: '{' :: ("HOST".data ++ ':' :: ("fb".data ++ '}' :: [])))
        = "a=".data ++ "fb".data ++ substChars (fun _ => "") [])) ∧
    enrichValue (fun _ => "") (String.mk ("HOST".data ++ ':' :: "fb".data)) =
      ("fb", false) := by
  refine ⟨⟨?_, ?_⟩, ?_⟩
  · have h := (interpolation_default_semantics
      (fun k => if k = "HOST" then "h1" else "") "a=".data "HOST".data "fb".data []
      (by decide) (by decide) (by decide) (by decide)).1
    simpa using h
  · have h := (interpolation_default_semantics
      (fun _ => "") "a=".data "HOST".data "fb".data []
      (by decide) (by decide) (by decide) (by decide)).1
    simpa using h
  · have h := (interpolation_default_semantics
      (fun _ => "") "a=".data "HOST".data "fb".data []
      (by decide) (by decide) (by decide) (by decide)).2
    simpa using h

/-- The os.Expand mapping enrichValue applied to a placeholder body whose
variable name before the colon is empty: the default segment is returned and
a warning emitted. -/
theorem enrichValue_empty_name (env : String → String) (d : List Char) :
    enrichValue env (String.mk (':' :: d)) = (String.mk d, true) := by
  have hne : String.mk (':' :: d) ≠ "" := by
    intro hcontr
    have := congrArg String.data hcontr
    simp_all
  unfold enrichValue
  rw [if_neg hne]
  have hdata : (String.mk (':' :: d)).data = ':' :: d := rfl
  simp only [hdata]
  rw [List.dropWhile_cons_of_neg (by simp)]
  rw [List.takeWhile_cons_of_neg (by simp)]
  simp

/-- The regex engine on a placeholder whose name group is empty: the name
group of the placeholder pattern requires at least one character, so no
match starts at the dollar sign and the whole placeholder text is copied
verbatim, scanning resuming only after it. -/
theorem substChars_empty_name_literal (env : String → String) (d s : List Char)
    (hd : ∀ c ∈ d, c ≠ '$') :
    substChars env ('$' :: '{' :: ':' :: (d ++ '}' :: s)) =
      '$' :: '{' :: ':' :: (d ++ '}' :: substChars env s) := by
  have hmatch : matchPlaceholder (':' :: (d ++ '}' :: s)) = none := by
    unfold matchPlaceholder
    rw [List.takeWhile_cons_of_neg (by simp [isNameChar])]
    simp
  rw [substChars_dollar_nomatch env hmatch]
  rw [substChars_cons_ne_dollar env _ (by decide)]
  rw [substChars_cons_ne_dollar env _ (by decide)]
  rw [substChars_append_no_dollar env hd]
  rw [substChars_cons_ne_dollar env _ (by decide)]

/-- Claim C9 (amended): a placeholder whose variable name before the colon
is empty.  The regex engine processEnvSubstitutions (yaml_parser.go)
requires a nonempty name group, so the placeholder never matches: its text
is left literally in the scalar, nothing is substituted and no warning is
emitted.  The os.Expand mapping enrichValue (loader.go) treats it as
malformed and substitutes the default segment, emitting a warning. -/
theorem interpolation_empty_name (env : String → String) (d s : List Char)
    (hd : ∀ c ∈ d, c ≠ '$') :
    substChars env ('$' :: '{' :: ':' :: (d ++ '}' :: s)) =
      '$' :: '{' :: ':' :: (d ++ '}' :: substChars env s) ∧
    enrichValue env (String.mk (':' :: d)) = (String.mk d, true) :=
  ⟨substChars_empty_name_literal env d s hd, enrichValue_empty_name env d⟩

/-- Witness for C9 (amended) at the placeholder with default segment d,
against an environment that maps every name to a nonempty value: the regex
engine still copies the placeholder verbatim, and enrichValue still returns
the default with a warning. -/
theorem interpolation_empty_name_witness :
    (∀ c ∈ ("d" : String).data, c ≠ '$') ∧
    (substChars (fun _ => "fromenv")
        ('$' :: '{' :: ':' :: ("d".data ++ '}' :: [])) =
      '$' :: '{' :: ':' :: ("d".data ++ '}' ::
        substChars (fun _ => "fromenv") []) ∧
    enrichValue (fun _ => "fromenv") (String.mk (':' :: "d".data)) =
      (String.mk "d".data, true)) :=
  ⟨by decide, interpolation_empty_name (fun _ => "fromenv") "d".data [] (by decide)⟩

theorem digitChar_ne_dollar {k : Nat} (hk : k < 10) : digitChar k ≠ '$' := by
  interval_cases k <;> decide

theorem natDigits_no_dollar (n : Nat) : ∀ c ∈ natDigits n, c ≠ '$' := by
  induction n using Nat.strong_induction_on with
  | _ n ih =>
      unfold natDigits
      by_cases h : n < 10
      · simp only [if_pos h]
        intro c hc
        simp only [List.mem_singleton] at hc
        subst hc
        exact digitChar_ne_dollar h
      · simp only [if_neg h]
        intro c hc
        rcases List.mem_append.mp hc with h1 | h2
        · exact ih (n / 10) (Nat.div_lt_self (by omega) (by omega)) c h1
        · simp only [List.mem_singleton] at h2
          subst h2
          exact digitChar_ne_dollar (Nat.mod_lt _ (by omega))

theorem intChars_no_dollar (i : Int) : ∀ c ∈ intChars i, c ≠ '$' := by
  unfold intChars
  by_cases h : i < 0
  · simp only [if_pos h]
    intro c hc
    rcases List.mem_cons.mp hc with h1 | h2
    · subst h1; decide
    · exact natDigits_no_dollar _ c h2
  · simp only [if_neg h]
    exact natDigits_no_dollar _

/-- The per-entry body of processEnvSubstitutions (yaml_parser.go): render
the value to a string, rewrite the placeholders; keep the rewritten string
(as a string value) when the rewriting changed it, and the original typed
value otherwise. -/
def processEntry (env : String → String) (value : GoValue) : GoValue :=
  let strValue := goToStr value
  let processedValue := String.mk (substChars env strValue.data)
  if processedValue ≠ strValue then .vStr processedValue else value

/-- processEnvSubstitutions (yaml_parser.go): build a new map holding, for
every entry of the flat map, the processed value under the same key. -/
def processEnvSubstitutions (env : String → String)
    (m : List (String × GoValue)) : List (String × GoValue) :=
  m.foldl (fun acc kv => mapInsert acc kv.1 (processEntry env kv.2)) []

/-- Claim C7: interpolation preserves scalar types.  If the placeholder
rewriting changed the rendered string, the entry becomes a string value; if
it left the rendering unchanged, the original typed scalar is kept — in
particular an integer scalar, whose rendering never contains a dollar sign,
is always preserved as a numeric value. -/
theorem processEntry_type_preservation (env : String → String) (v : GoValue) :
    (String.mk (substChars env (goToStr v).data) ≠ goToStr v →
      processEntry env v = .vStr (String.mk (substChars env (goToStr v).data))) ∧
    (String.mk (substChars env (goToStr v).data) = goToStr v →
      processEntry env v = v) ∧
    (∀ n : Int, processEntry env (.vInt n) = .vInt n) := by
  refine ⟨?_, ?_, ?_⟩
  · intro h
    simp only [processEntry, if_pos h]
  · intro h
    simp only [processEntry, h]
    simp
  · intro n
    have hstr : goToStr (GoValue.vInt n) = String.mk (intChars n) := by
      simp [goToStr]
    have hkey : String.mk (substChars env (goToStr (GoValue.vInt n)).data) =
        goToStr (GoValue.vInt n) := by
      rw [hstr]
      rw [substChars_no_dollar env (intChars_no_dollar n)]
    simp only [processEntry, hkey]
    simp

/-- Witness for C7: with the empty environment, the scalar string
`${A:x}` is rewritten (to `x`) and becomes a string, the dollar-free
string `plain` is kept unchanged, and the integer scalar 8080 stays an
integer. -/
theorem processEntry_type_preservation_witness :
    (String.mk (substChars (fun _ => "") (goToStr (GoValue.vStr "${A:x}")).data) ≠
        goToStr (GoValue.vStr "${A:x}") ∧
      processEntry (fun _ => "") (GoValue.vStr "${A:x}") =
        .vStr (String.mk (substChars (fun _ => "")
          (goToStr (GoValue.vStr "${A:x}")).data))) ∧
    (String.mk (substChars (fun _ => "") (goToStr (GoValue.vStr "plain")).data) =
        goToStr (GoValue.vStr "plain") ∧
      processEntry (fun _ => "") (GoValue.vStr "plain") = GoValue.vStr "plain") ∧
    processEntry (fun _ => "") (GoValue.vInt 8080) = GoValue.vInt 8080 := by
  have hplain : String.mk (substChars (fun _ => "")
      (goToStr (GoValue.vStr "plain")).data) = goToStr (GoValue.vStr "plain") := by
    have h1 : goToStr (GoValue.vStr "plain") = "plain" := by simp [goToStr]
    rw [h1]
    rw [substChars_no_dollar (fun _ => "") (by decide)]
  have hchanged : String.mk (substChars (fun _ => "")
      (goToStr (GoValue.vStr "${A:x}")).data) ≠ goToStr (GoValue.vStr "${A:x}") := by
    have h1 : goToStr (GoValue.vStr "${A:x}") = "${A:x}" := by simp [goToStr]
    have h2 : ("${A:x}" : String).data =
        '$' :: '{' :: ("A".data ++ ':' :: ("x".data ++ '}' :: [])) := by decide
    have h3 := (interpolation_default_semantics (fun _ => "")
      [] "A".data "x".data [] (by decide) (by decide) (by decide) (by decide)).1
    rw [h1, h2]
    simp only [List.nil_append] at h3
    rw [h3]
    rw [substChars_nil]
    decide
  refine ⟨⟨hchanged, ?_⟩, ⟨hplain, ?_⟩, ?_⟩
  · exact (processEntry_type_preservation (fun _ => "") (GoValue.vStr "${A:x}")).1 hchanged
  · exact (processEntry_type_preservation (fun _ => "") (GoValue.vStr "plain")).2.1 hplain
  · exact (processEntry_type_preservation (fun _ => "") (GoValue.vInt 0)).2.2 8080

/-- Counterexample to claim C9 as stated, for the cited engine
processEnvSubstitutions: the scalar holding the placeholder with an empty
variable name is passed through unchanged — its default segment d is not
substituted (the scalar does not become the string d). -/
theorem processEnvSubstitutions_leaves_empty_name_literal :
    processEntry (fun _ => "") (GoValue.vStr "${:d}") = GoValue.vStr "${:d}" ∧
    ("${:d}" : String) ≠ "d" := by
  constructor
  · have hstr : goToStr (GoValue.vStr "${:d}") = "${:d}" := by simp [goToStr]
    have hdata : ("${:d}" : String).data =
        '$' :: '{' :: ':' :: ("d".data ++ '}' :: []) := by decide
    have hsub : substChars (fun _ => "") (("${:d}" : String).data) =
        ("${:d}" : String).data := by
      rw [hdata, substChars_empty_name_literal (fun _ => "") "d".data [] (by decide),
        substChars_nil]
    have hmk : String.mk (("${:d}" : String).data) = "${:d}" := by decide
    simp [processEntry, hstr, hsub, hmk]
  · decide

/-! ### Complexity validation -/

/-- maxNestingDepth (yaml_parser.go): maximum YAML nesting depth. -/
def maxNestingDepth : Nat := 32

mutual
/-- validateYAMLComplexity (yaml_parser.go): error out when the recursion
depth exceeds maxNestingDepth, and otherwise recurse into every mapping
value and every sequence element at depth + 1 (a nil Go map or any scalar
has nothing to recurse into). -/
def validateYAMLComplexity (data : GoValue) (depth : Nat) : Except String Unit :=
  if depth > maxNestingDepth then
    .error "nesting depth exceeds maximum of 32"
  else
    match data with
    | .vMap (some es) => validateMapEntries es depth
    | .vSeq items => validateSeqItems items depth
    | _ => .ok ()

/-- The range loop of validateYAMLComplexity over mapping entries: validate
each value at depth + 1, stopping at the first error. -/
def validateMapEntries (es : List (String × GoValue)) (depth : Nat) :
    Except String Unit :=
  match es with
  | [] => .ok ()
  | (_, v) :: rest =>
      match validateYAMLComplexity v (depth + 1) with
      | .error e => .error e
      | .ok _ => validateMapEntries rest depth

/-- The range loop of validateYAMLComplexity over sequence elements. -/
def validateSeqItems (items : List GoValue) (depth : Nat) :
    Except String Unit :=
  match items with
  | [] => .ok ()
  | v :: rest =>
      match validateYAMLComplexity v (depth + 1) with
      | .error e => .error e
      | .ok _ => validateSeqItems rest depth
end

mutual
/-- Nesting depth of a parsed value: scalars, nil maps and empty containers
sit at depth zero; a nonempty mapping or sequence is one level deeper than
its deepest child. -/
def yamlDepth : GoValue → Nat
  | .vMap (some es) => entriesDepth es
  | .vSeq items => itemsDepth items
  | _ => 0

/-- Depth contributed by mapping entries. -/
def entriesDepth : List (String × GoValue) → Nat
  | [] => 0
  | (_, v) :: rest => max (1 + yamlDepth v) (entriesDepth rest)

/-- Depth contributed by sequence elements. -/
def itemsDepth : List GoValue → Nat
  | [] => 0
  | v :: rest => max (1 + yamlDepth v) (itemsDepth rest)
end

theorem entriesDepth_le_iff (es : List (String × GoValue)) (d L : Nat) :
    d + entriesDepth es ≤ L ↔ d ≤ L ∧ ∀ p ∈ es, d + 1 + yamlDepth p.2 ≤ L := by
  induction es with
  | nil => simp [entriesDepth]
  | cons p rest ih =>
      obtain ⟨k, v⟩ := p
      rw [List.forall_mem_cons]
      simp only [entriesDepth]
      constructor
      · intro h
        have h2 : d + entriesDepth rest ≤ L := by omega
        have h1 : d + 1 + yamlDepth v ≤ L := by omega
        obtain ⟨hd2, hrest⟩ := ih.mp h2
        exact ⟨hd2, h1, hrest⟩
      · rintro ⟨hd2, h1, hrest⟩
        have h2 := ih.mpr ⟨hd2, hrest⟩
        omega

theorem itemsDepth_le_iff (items : List GoValue) (d L : Nat) :
    d + itemsDepth items ≤ L ↔ d ≤ L ∧ ∀ v ∈ items, d + 1 + yamlDepth v ≤ L := by
  induction items with
  | nil => simp [itemsDepth]
  | cons v rest ih =>
      rw [List.forall_mem_cons]
      simp only [itemsDepth]
      constructor
      · intro h
        have h2 : d + itemsDepth rest ≤ L := by omega
        have h1 : d + 1 + yamlDepth v ≤ L := by omega
        obtain ⟨hd2, hrest⟩ := ih.mp h2
        exact ⟨hd2, h1, hrest⟩
      · rintro ⟨hd2, h1, hrest⟩
        have h2 := ih.mpr ⟨hd2, hrest⟩
        omega

theorem validateMapEntries_ok_iff (es : List (String × GoValue)) (d : Nat)
    (hI : ∀ p ∈ es, ∀ d2,
      (validateYAMLComplexity p.2 d2 = .ok () ↔
        d2 + yamlDepth p.2 ≤ maxNestingDepth)) :
    validateMapEntries es d = .ok () ↔
      ∀ p ∈ es, d + 1 + yamlDepth p.2 ≤ maxNestingDepth := by
  induction es with
  | nil => simp [validateMapEntries]
  | cons p rest ih =>
      obtain ⟨k, v⟩ := p
      rw [List.forall_mem_cons]
      rw [validateMapEntries.eq_def]
      simp only
      cases hv : validateYAMLComplexity v (d + 1) with
      | error e =>
          simp only
          constructor
          · intro h
            exact absurd h (by simp)
          · rintro ⟨h1, -⟩
            have := (hI (k, v) (by simp) (d + 1)).mpr (by simpa using h1)
            rw [hv] at this
            exact absurd this (by simp)
      | ok u =>
          simp only
          have hhead : d + 1 + yamlDepth v ≤ maxNestingDepth := by
            have := (hI (k, v) (by simp) (d + 1)).mp (by rw [hv])
            simpa using this
          rw [ih (fun p hp d2 => hI p (by simp [hp]) d2)]
          simp [hhead]

theorem validateSeqItems_ok_iff (items : List GoValue) (d : Nat)
    (hI : ∀ v ∈ items, ∀ d2,
      (validateYAMLComplexity v d2 = .ok () ↔
        d2 + yamlDepth v ≤ maxNestingDepth)) :
    validateSeqItems items d = .ok () ↔
      ∀ v ∈ items, d + 1 + yamlDepth v ≤ maxNestingDepth := by
  induction items with
  | nil => simp [validateSeqItems]
  | cons v rest ih =>
      rw [List.forall_mem_cons]
      rw [validateSeqItems.eq_def]
      simp only
      cases hv : validateYAMLComplexity v (d + 1) with
      | error e =>
          simp only
          constructor
          · intro h
            exact absurd h (by simp)
          · rintro ⟨h1, -⟩
            have := (hI v (by simp) (d + 1)).mpr h1
            rw [hv] at this
            exact absurd this (by simp)
      | ok u =>
          simp only
          have hhead : d + 1 + yamlDepth v ≤ maxNestingDepth :=
            (hI v (by simp) (d + 1)).mp (by rw [hv])
          rw [ih (fun w hw d2 => hI w (by simp [hw]) d2)]
          simp [hhead]

theorem validateYAMLComplexity_ok_iff_aux (n : Nat) :
    ∀ (v : GoValue), sizeOf v ≤ n → ∀ (d : Nat),
      (validateYAMLComplexity v d = .ok () ↔
        d + yamlDepth v ≤ maxNestingDepth) := by
  induction n with
  | zero =>
      intro v hv
      exact absurd hv (by cases v <;> simp)
  | succ n ih =>
      intro v hv d
      rw [validateYAMLComplexity.eq_def]
      by_cases hd : d > maxNestingDepth
      · rw [if_pos hd]
        constructor
        · intro h
          exact absurd h (by simp)
        · intro h
          omega
      · rw [if_neg hd]
        match v with
        | .vNull => simp [yamlDepth]; omega
        | .vStr s => simp [yamlDepth]; omega
        | .vInt i => simp [yamlDepth]; omega
        | .vBool b => simp [yamlDepth]; omega
        | .vMap none => simp [yamlDepth]; omega
        | .vMap (some es) =>
            simp only
            have hsub : ∀ p ∈ es, ∀ d2,
                (validateYAMLComplexity p.2 d2 = .ok () ↔
                  d2 + yamlDepth p.2 ≤ maxNestingDepth) := by
              intro p hp d2
              have hlt : sizeOf p < sizeOf es := List.sizeOf_lt_of_mem hp
              have hps : sizeOf p.2 ≤ n := by
                obtain ⟨a, b⟩ := p
                simp at hlt hv ⊢
                omega
              exact ih p.2 hps d2
            rw [validateMapEntries_ok_iff es d hsub]
            rw [show yamlDepth (GoValue.vMap (some es)) = entriesDepth es from by
              simp [yamlDepth]]
            rw [entriesDepth_le_iff]
            simp [Nat.le_of_not_lt hd]
        | .vSeq items =>
            simp only
            have hsub : ∀ w ∈ items, ∀ d2,
                (validateYAMLComplexity w d2 = .ok () ↔
                  d2 + yamlDepth w ≤ maxNestingDepth) := by
              intro w hw d2
              have hlt : sizeOf w < sizeOf items := List.sizeOf_lt_of_mem hw
              have hps : sizeOf w ≤ n := by
                simp at hv
                omega
              exact ih w hps d2
            rw [validateSeqItems_ok_iff items d hsub]
            rw [show yamlDepth (GoValue.vSeq items) = itemsDepth items from by
              simp [yamlDepth]]
            rw [itemsDepth_le_iff]
            simp [Nat.le_of_not_lt hd]

/-- A document consisting of n nested mappings around a string scalar. -/
def nestedDoc : Nat → GoValue
  | 0 => .vStr "x"
  | n + 1 => .vMap (some [("k", nestedDoc n)])

theorem yamlDepth_nestedDoc (n : Nat) : yamlDepth (nestedDoc n) = n := by
  induction n with
  | zero => simp [nestedDoc, yamlDepth]
  | succ n ih =>
      simp [nestedDoc, yamlDepth, entriesDepth, ih]
      omega

/-- Claim C3: the complexity validator accepts a parsed tree exactly when
its nesting depth is at most 32; in particular a document of exactly 32
nested mapping levels is accepted, and one of 33 levels is rejected with an
error. -/
theorem validateYAMLComplexity_depth_bound (v : GoValue) :
    (validateYAMLComplexity v 0 = .ok () ↔ yamlDepth v ≤ 32) ∧
    validateYAMLComplexity (nestedDoc 32) 0 = .ok () ∧
    (∃ e, validateYAMLComplexity (nestedDoc 33) 0 = .error e) := by
  have main : ∀ (w : GoValue), validateYAMLComplexity w 0 = .ok () ↔
      yamlDepth w ≤ 32 := by
    intro w
    have := validateYAMLComplexity_ok_iff_aux (sizeOf w) w (le_refl _) 0
    simpa [maxNestingDepth] using this
  refine ⟨main v, ?_, ?_⟩
  · rw [main (nestedDoc 32), yamlDepth_nestedDoc]
  · have h33 : ¬ (validateYAMLComplexity (nestedDoc 33) 0 = .ok ()) := by
      rw [main (nestedDoc 33), yamlDepth_nestedDoc]
      omega
    cases hres : validateYAMLComplexity (nestedDoc 33) 0 with
    | error e => exact ⟨e, rfl⟩
    | ok u =>
        cases u
        exact absurd hres h33

/-! ### Source reading: the size gate of parseYAMLFile -/

/-- maxFileSize (yaml_parser.go): 10 MiB. -/
def maxFileSize : Nat := 10 * 1024 * 1024

/-- The staged checks of parseYAMLFile (yaml_parser.go) with the I/O
abstracted: the traversal check on the path, then the size check against
the stat result, then reading plus YAML decoding (`parsed` stands for the
decoder's outcome on the file's bytes), then complexity validation.  The
decoder outcome is consulted only after the size check passes. -/
def parseYAMLFile (hasDotDot : Bool) (fileSize : Nat)
    (parsed : Except String GoValue) : Except String GoValue :=
  if hasDotDot then .error "path traversal not allowed"
  else if fileSize > maxFileSize then .error "file too large"
  else
    match parsed with
    | .error _ => .error "failed to parse YAML"
    | .ok tree =>
        match validateYAMLComplexity tree 0 with
        | .error _ => .error "YAML too complex"
        | .ok _ => .ok tree

/-- Claim C6: a document of more than 10 MiB is rejected with the size
error whatever the decoder would have said (so before any parsing), and a
document of exactly 10 MiB passes the size check — for a well-formed
document it loads. -/
theorem parseYAMLFile_size_limit (parsed : Except String GoValue) :
    (∀ n : Nat, n > 10 * 1024 * 1024 →
      parseYAMLFile false n parsed = .error "file too large") ∧
    parseYAMLFile false (10 * 1024 * 1024) (.ok (GoValue.vMap (some []))) =
      .ok (GoValue.vMap (some [])) := by
  constructor
  · intro n hn
    unfold parseYAMLFile maxFileSize
    rw [if_neg (by simp)]
    rw [if_pos (by omega)]
  · unfold parseYAMLFile maxFileSize
    rw [if_neg (by simp)]
    rw [if_neg (by omega)]
    have hval : validateYAMLComplexity (GoValue.vMap (some [])) 0 = .ok () := by
      rw [validateYAMLComplexity.eq_def]
      rw [if_neg (by simp [maxNestingDepth])]
      simp [validateMapEntries]
    simp [hval]

/-- Witness for C6: a 10 MiB + 1 byte file is rejected with the size error
even when its bytes would not parse, and a 10 MiB file with a trivial
document loads. -/
theorem parseYAMLFile_size_limit_witness :
    ((10 * 1024 * 1024 + 1 : Nat) > 10 * 1024 * 1024 ∧
      parseYAMLFile false (10 * 1024 * 1024 + 1) (.error "syntax error") =
        .error "file too large") ∧
    parseYAMLFile false (10 * 1024 * 1024) (.ok (GoValue.vMap (some []))) =
      .ok (GoValue.vMap (some [])) :=
  ⟨⟨by omega,
    (parseYAMLFile_size_limit (.error "syntax error")).1 _ (by omega)⟩,
   (parseYAMLFile_size_limit (.error "syntax error")).2⟩

/-! ### Typed accessors -/

/-- Numeric value of a decimal digit character, for strconv parsing. -/
def digitVal (c : Char) : Option Nat :=
  if '0' ≤ c ∧ c ≤ '9' then some (c.toNat - 48) else none

/-- Accumulating loop of decimal parsing. -/
def parseDigitsAux : List Char → Nat → Option Nat
  | [], acc => some acc
  | c :: rest, acc =>
      match digitVal c with
      | none => none
      | some dv => parseDigitsAux rest (acc * 10 + dv)

/-- At least one decimal digit, all characters digits. -/
def parseDigits (l : List Char) : Option Nat :=
  if l.isEmpty then none else parseDigitsAux l 0

/-- strconv.Atoi: an optional single leading sign followed by one or more
decimal digits; anything else is an error.  (Atoi additionally rejects
values overflowing the machine int; overflow is not modelled — the claims
evaluate it on small values only.) -/
def Atoi (s : String) : Option Int :=
  match s.data with
  | '+' :: rest => (parseDigits rest).map (fun n => (n : Int))
  | '-' :: rest => (parseDigits rest).map (fun n => -(n : Int))
  | l => (parseDigits l).map (fun n => (n : Int))

/-- strconv.ParseBool: accepts exactly 1, t, T, TRUE, true, True and
0, f, F, FALSE, false, False. -/
def ParseBool (s : String) : Option Bool :=
  if s = "1" ∨ s = "t" ∨ s = "T" ∨ s = "TRUE" ∨ s = "true" ∨ s = "True" then
    some true
  else if s = "0" ∨ s = "f" ∨ s = "F" ∨ s = "FALSE" ∨ s = "false" ∨ s = "False" then
    some false
  else none

/-- Config.Get (konfig.go): raw lookup in the namespace. -/
def Get (c : List (String × GoValue)) (key : String) : Option GoValue :=
  mapLookup c key

/-- Config.GetString (konfig.go). -/
def GetString (c : List (String × GoValue)) (key : String) : String :=
  match Get c key with
  | some v => goToStr v
  | none => ""

/-- Config.GetInt (konfig.go): render the value, require it nonempty, parse
with strconv.Atoi; zero on any failure. -/
def GetInt (c : List (String × GoValue)) (key : String) : Int :=
  match Get c key with
  | some v =>
      if goToStr v ≠ "" then
        match Atoi (goToStr v) with
        | some i => i
        | none => 0
      else 0
  | none => 0

/-- Config.GetBool (konfig.go). -/
def GetBool (c : List (String × GoValue)) (key : String) : Bool :=
  match Get c key with
  | some v =>
      if goToStr v ≠ "" then
        match ParseBool (goToStr v) with
        | some b => b
        | none => false
      else false
  | none => false

/-- Config.GetIntWithDefault (konfig.go): fall back to the caller's default
only when the key is absent or renders to the empty string; otherwise defer
to GetInt. -/
def GetIntWithDefault (c : List (String × GoValue)) (key : String)
    (defaultValue : Int) : Int :=
  match Get c key with
  | some v => if goToStr v ≠ "" then GetInt c key else defaultValue
  | none => defaultValue

/-- Config.GetBoolWithDefault (konfig.go). -/
def GetBoolWithDefault (c : List (String × GoValue)) (key : String)
    (defaultValue : Bool) : Bool :=
  match Get c key with
  | some v => if goToStr v ≠ "" then GetBool c key else defaultValue
  | none => defaultValue

/-- Claim C4 (amended): the typed getters GetInt/GetBool return the zero
value whenever the key is absent, the value renders to the empty string, or
coercion of the rendering fails; the WithDefault variants return the
caller-supplied fallback exactly when the key is absent or the value
renders to the empty string, while on a present, nonempty value whose
coercion fails they return the zero value — not the fallback — because
they delegate to the plain getter. -/
theorem typed_getters_zero_and_fallback (c : List (String × GoValue))
    (k : String) (di : Int) (db : Bool) :
    ((Get c k = none ∨ ∃ v, Get c k = some v ∧ goToStr v = "") →
      GetInt c k = 0 ∧ GetBool c k = false ∧
      GetIntWithDefault c k di = di ∧ GetBoolWithDefault c k db = db) ∧
    (∀ v, Get c k = some v → goToStr v ≠ "" → Atoi (goToStr v) = none →
      GetInt c k = 0 ∧ GetIntWithDefault c k di = 0) ∧
    (∀ v, Get c k = some v → goToStr v ≠ "" → ParseBool (goToStr v) = none →
      GetBool c k = false ∧ GetBoolWithDefault c k db = false) ∧
    (∀ v i, Get c k = some v → goToStr v ≠ "" → Atoi (goToStr v) = some i →
      GetInt c k = i ∧ GetIntWithDefault c k di = i) := by
  refine ⟨?_, ?_, ?_, ?_⟩
  · rintro (h | ⟨v, hv, hs⟩)
    · simp [GetInt, GetBool, GetIntWithDefault, GetBoolWithDefault, h]
    · simp [GetInt, GetBool, GetIntWithDefault, GetBoolWithDefault, hv, hs]
  · intro v hv hs ha
    simp [GetInt, GetIntWithDefault, hv, hs, ha]
  · intro v hv hs hp
    simp [GetBool, GetBoolWithDefault, hv, hs, hp]
  · intro v i hv hs ha
    simp [GetInt, GetIntWithDefault, hv, hs, ha]

/-- Counterexample to claim C4 as stated: at key k bound to the string
xyz — present and nonempty, failing integer coercion — the claim says
GetIntWithDefault returns the caller-supplied fallback 42, but it returns
the zero value 0. -/
theorem getIntWithDefault_not_fallback_on_bad_coercion :
    GetIntWithDefault [("k", GoValue.vStr "xyz")] "k" 42 = 0 ∧ (0 : Int) ≠ 42 := by
  constructor
  · have hstr : goToStr (GoValue.vStr "xyz") = "xyz" := by simp [goToStr]
    have hget : Get [("k", GoValue.vStr "xyz")] "k" =
        some (GoValue.vStr "xyz") := rfl
    have hatoi : Atoi "xyz" = none := by decide
    simp [GetIntWithDefault, GetInt, hget, hstr, hatoi]
  · decide

/-- A concrete namespace with an empty-string value, a non-coercible value
and a well-formed integer value. -/
def sampleConfig : List (String × GoValue) :=
  [("a", GoValue.vStr ""), ("b", GoValue.vStr "xyz"), ("n", GoValue.vStr "7")]

/-- Witness for C4 (amended) covering each case: an absent key, an
empty-string value, a non-coercible value, and a coercible value. -/
theorem typed_getters_zero_and_fallback_witness :
    (GetInt sampleConfig "missing" = 0 ∧ GetBool sampleConfig "missing" = false ∧
      GetIntWithDefault sampleConfig "missing" 42 = 42 ∧
      GetBoolWithDefault sampleConfig "missing" true = true) ∧
    (GetInt sampleConfig "a" = 0 ∧ GetBool sampleConfig "a" = false ∧
      GetIntWithDefault sampleConfig "a" 42 = 42 ∧
      GetBoolWithDefault sampleConfig "a" true = true) ∧
    (GetInt sampleConfig "b" = 0 ∧ GetIntWithDefault sampleConfig "b" 42 = 0) ∧
    (GetBool sampleConfig "b" = false ∧
      GetBoolWithDefault sampleConfig "b" true = false) ∧
    (GetInt sampleConfig "n" = 7 ∧ GetIntWithDefault sampleConfig "n" 42 = 7) := by
  refine ⟨?_, ?_, ?_, ?_, ?_⟩
  · exact (typed_getters_zero_and_fallback sampleConfig "missing" 42 true).1
      (Or.inl rfl)
  · exact (typed_getters_zero_and_fallback sampleConfig "a" 42 true).1
      (Or.inr ⟨GoValue.vStr "", rfl, by simp [goToStr]⟩)
  · exact (typed_getters_zero_and_fallback sampleConfig "b" 42 true).2.1
      (GoValue.vStr "xyz") rfl (by simp [goToStr])
      (by simp only [goToStr]; decide)
  · exact (typed_getters_zero_and_fallback sampleConfig "b" 42 true).2.2.1
      (GoValue.vStr "xyz") rfl (by simp [goToStr])
      (by simp only [goToStr]; decide)
  · exact (typed_getters_zero_and_fallback sampleConfig "n" 42 true).2.2.2
      (GoValue.vStr "7") 7 rfl (by simp [goToStr])
      (by simp only [goToStr]; decide)

/-! ### Flattening and export (loader.go) -/

/-- updatePrefix (loader.go). -/
def updatePrefix (pfx key : String) : String :=
  if pfx = "" then key else pfx ++ "." ++ key

/-- processConfig (loader.go): walk the parsed mapping, skipping entries
with an empty key, recursing into non-nil mapping values under the
dot-extended prefix, copying sequence values, and emitting every other
value as a leaf under the prefixed key.  The Go function's error returns
fire only for nil map arguments, which the list model cannot represent, so
the walk is total here. -/
def processConfig (pfx : String) (configMap : List (String × GoValue))
    (resultConfigMap : List (String × GoValue)) : List (String × GoValue) :=
  match configMap with
  | [] => resultConfigMap
  | (key, value) :: rest =>
      if key = "" then processConfig pfx rest resultConfigMap
      else
        match value with
        | .vMap (some m) =>
            processConfig pfx rest
              (processConfig (updatePrefix pfx key) m resultConfigMap)
        | .vMap none => processConfig pfx rest resultConfigMap
        | .vSeq items =>
            processConfig pfx rest
              (mapInsert resultConfigMap (updatePrefix pfx key) (.vSeq items))
        | v =>
            processConfig pfx rest
              (mapInsert resultConfigMap (updatePrefix pfx key) v)

/-- buildEnvVariables (loader.go). -/
def buildEnvVariables (configMap : List (String × GoValue)) :
    List (String × GoValue) :=
  processConfig "" configMap []

/-- Error raised while exporting the flattened namespace. -/
inductive PostErr where
  | propertyIsNil (key : String)
deriving Repr, DecidableEq

/-- Go's `value == nil` on an interface value: true exactly for the untyped
nil produced by a YAML null. -/
def isNil : GoValue → Bool
  | .vNull => true
  | _ => false

/-- postProcessConfig (loader.go): walk the flat exported map; a nil value
aborts with the property-is-nil validation error, otherwise every entry is
exported to the environment as its rendered string (returned as a list;
os.Setenv failure is not modelled). -/
def postProcessConfig :
    List (String × GoValue) → Except PostErr (List (String × String))
  | [] => .ok []
  | (key, value) :: rest =>
      if isNil value then .error (.propertyIsNil key)
      else
        match postProcessConfig rest with
        | .error e => .error e
        | .ok env2 => .ok ((key, goToStr value) :: env2)

theorem isNil_eq_true_iff (v : GoValue) : isNil v = true ↔ v = GoValue.vNull := by
  cases v <;> simp [isNil]

theorem postProcessConfig_error_of_nil {m : List (String × GoValue)}
    (h : ∃ p ∈ m, p.2 = GoValue.vNull) :
    ∃ k, postProcessConfig m = .error (.propertyIsNil k) ∧
      (k, GoValue.vNull) ∈ m := by
  induction m with
  | nil => simp at h
  | cons p rest ih =>
      obtain ⟨key, value⟩ := p
      by_cases hnil : isNil value
      · have hv : value = GoValue.vNull := (isNil_eq_true_iff value).mp hnil
        subst hv
        refine ⟨key, ?_, by simp⟩
        simp [postProcessConfig, isNil]
      · have hstep : postProcessConfig ((key, value) :: rest) =
            match postProcessConfig rest with
            | .error e => .error e
            | .ok env2 => .ok ((key, goToStr value) :: env2) := by
          simp [postProcessConfig, hnil]
        have hrest : ∃ p ∈ rest, p.2 = GoValue.vNull := by
          obtain ⟨q, hq, hq2⟩ := h
          rcases List.mem_cons.mp hq with hhead | htail
          · exfalso
            apply hnil
            rw [isNil_eq_true_iff]
            rw [hhead] at hq2
            exact hq2
          · exact ⟨q, htail, hq2⟩
        obtain ⟨k2, herr, hmem⟩ := ih hrest
        refine ⟨k2, ?_, List.mem_cons_of_mem _ hmem⟩
        rw [hstep, herr]

theorem postProcessConfig_ok_of_no_nil {m : List (String × GoValue)}
    (h : ∀ p ∈ m, p.2 ≠ GoValue.vNull) :
    ∃ env2, postProcessConfig m = .ok env2 := by
  induction m with
  | nil => exact ⟨[], rfl⟩
  | cons p rest ih =>
      obtain ⟨key, value⟩ := p
      have hnil : ¬ isNil value = true := by
        rw [isNil_eq_true_iff]
        exact h (key, value) (by simp)
      obtain ⟨env2, hok⟩ := ih (fun q hq => h q (List.mem_cons_of_mem _ hq))
      refine ⟨(key, goToStr value) :: env2, ?_⟩
      simp [postProcessConfig, hnil, hok]

/-- Claim C8: exporting a flattened namespace fails with the
property-is-nil validation error (naming an offending key) exactly when
some exported entry holds a null leaf; a null that occurs only as a nil
intermediate mapping node is skipped by the flattener, never exported, and
causes no error — shown on the document with a nil mapping under key a and
the string x under key b. -/
theorem postProcessConfig_nil_leaf (m : List (String × GoValue)) :
    ((∃ p ∈ m, p.2 = GoValue.vNull) →
      ∃ k, postProcessConfig m = .error (.propertyIsNil k) ∧
        (k, GoValue.vNull) ∈ m) ∧
    ((∀ p ∈ m, p.2 ≠ GoValue.vNull) →
      ∃ env2, postProcessConfig m = .ok env2) ∧
    (buildEnvVariables [("a", GoValue.vMap none), ("b", GoValue.vStr "x")] =
        [("b", GoValue.vStr "x")] ∧
      postProcessConfig (buildEnvVariables
        [("a", GoValue.vMap none), ("b", GoValue.vStr "x")]) = .ok [("b", "x")]) := by
  refine ⟨fun h => postProcessConfig_error_of_nil h,
    fun h => postProcessConfig_ok_of_no_nil h, ?_, ?_⟩
  · simp [buildEnvVariables, processConfig, mapInsert, updatePrefix]
  · simp [buildEnvVariables, processConfig, mapInsert, postProcessConfig, isNil,
      goToStr, updatePrefix]

/-- Witness for C8: the export of a namespace holding a null leaf under key
k fails naming k, and the export of a null-free namespace succeeds. -/
theorem postProcessConfig_nil_leaf_witness :
    ((∃ p ∈ [("k", GoValue.vNull)], p.2 = GoValue.vNull) ∧
      (∃ k2, postProcessConfig [("k", GoValue.vNull)] =
          .error (.propertyIsNil k2) ∧
        (k2, GoValue.vNull) ∈ [("k", GoValue.vNull)])) ∧
    ((∀ p ∈ [("b", GoValue.vStr "x")], p.2 ≠ GoValue.vNull) ∧
      ∃ env2, postProcessConfig [("b", GoValue.vStr "x")] = .ok env2) :=
  ⟨⟨⟨("k", GoValue.vNull), by simp, rfl⟩,
    (postProcessConfig_nil_leaf [("k", GoValue.vNull)]).1
      ⟨("k", GoValue.vNull), by simp, rfl⟩⟩,
   ⟨by simp, (postProcessConfig_nil_leaf [("b", GoValue.vStr "x")]).2.1 (by simp)⟩⟩

/-- The range loop of flattenMap (yaml_parser.go): for every entry, the
full key extends the prefix unconditionally — there is no key check of any
kind; a mapping value is flattened recursively and its entries copied into
the result, a nil map contributes nothing, and every other value is
emitted under the full key. -/
def flattenMapLoop (m : List (String × GoValue)) (pfx : String)
    (result : List (String × GoValue)) : List (String × GoValue) :=
  match m with
  | [] => result
  | (key, value) :: rest =>
      match value with
      | .vMap (some nested) =>
          flattenMapLoop rest pfx
            ((flattenMapLoop nested
                (if pfx ≠ "" then pfx ++ "." ++ key else key) []).foldl
              (fun acc kv => mapInsert acc kv.1 kv.2) result)
      | .vMap none => flattenMapLoop rest pfx result
      | _ =>
          flattenMapLoop rest pfx
            (mapInsert result (if pfx ≠ "" then pfx ++ "." ++ key else key) value)

/-- flattenMap (yaml_parser.go): convert nested mappings into dot-notation
keys, starting from an empty result map. -/
def flattenMap (m : List (String × GoValue)) (pfx : String) :
    List (String × GoValue) :=
  flattenMapLoop m pfx []

/-- Whether flattenMap's type switch emits the value directly: anything
that is not a Go map. -/
def isLeafValue : GoValue → Bool
  | .vMap _ => false
  | _ => true

/-- Claim C10 (amended): the flattener processConfig (loader.go) skips
exactly the entries whose key is the empty string — no namespace entry is
emitted for them and they extend no dot-joined path — while blank but
nonempty keys are not skipped; the flattenMap variant (yaml_parser.go)
performs no key skipping at all: every leaf-valued entry, whatever its
key (empty and blank included), is emitted under the prefix-extended
key. -/
theorem flattener_empty_key_handling (pfx pfx2 k2 : String) (v w : GoValue)
    (rest acc : List (String × GoValue)) (rest2 acc2 : List (String × GoValue))
    (hw : isLeafValue w = true) :
    processConfig pfx (("", v) :: rest) acc = processConfig pfx rest acc ∧
    flattenMapLoop ((k2, w) :: rest2) pfx2 acc2 =
      flattenMapLoop rest2 pfx2
        (mapInsert acc2 (if pfx2 ≠ "" then pfx2 ++ "." ++ k2 else k2) w) := by
  constructor
  · rw [processConfig.eq_def]
    simp
  · cases w with
    | vMap es => simp [isLeafValue] at hw
    | vNull => rw [flattenMapLoop.eq_def]
    | vStr s2 => rw [flattenMapLoop.eq_def]
    | vInt n2 => rw [flattenMapLoop.eq_def]
    | vBool b2 => rw [flattenMapLoop.eq_def]
    | vSeq items2 => rw [flattenMapLoop.eq_def]

/-- Witness for C10 (amended): the empty-keyed entry is dropped by
processConfig, and flattenMap emits an entry even for the empty key. -/
theorem flattener_empty_key_handling_witness :
    isLeafValue (GoValue.vStr "x") = true ∧
    (processConfig "" [("", GoValue.vStr "v")] [] = processConfig "" [] [] ∧
    flattenMapLoop [("", GoValue.vStr "x")] "" [] =
      flattenMapLoop [] ""
        (mapInsert [] (if ("" : String) ≠ "" then "" ++ "." ++ "" else "")
          (GoValue.vStr "x"))) :=
  ⟨by decide,
   flattener_empty_key_handling "" "" "" (GoValue.vStr "v") (GoValue.vStr "x")
     [] [] [] [] (by decide)⟩

/-- Counterexample to claim C10 as stated: a blank but nonempty key (a
single space) is not skipped by processConfig, and an empty key is not
skipped by flattenMap — each flattener emits a namespace entry for the
offending key. -/
theorem flatteners_propagate_blank_and_empty_keys :
    buildEnvVariables [(" ", GoValue.vStr "v")] = [(" ", GoValue.vStr "v")] ∧
    flattenMap [("", GoValue.vStr "x")] "" = [("", GoValue.vStr "x")] := by
  constructor
  · simp [buildEnvVariables, processConfig, updatePrefix, mapInsert]
  · simp [flattenMap, flattenMapLoop, mapInsert]

/-! ### Struct binding (konfig.go) -/

/-- The scalar field kinds modelled for the struct binder: string, the int
family, bool.  (Float, uint and duration fields follow the same
convert-or-error shape in the Go source; the claims do not evaluate
them.) -/
inductive FieldKind where
  | fString
  | fInt
  | fBool
deriving Repr, DecidableEq

/-- A bound field's current value. -/
inductive FieldVal where
  | sVal (s : String)
  | iVal (i : Int)
  | bVal (b : Bool)
deriving Repr, DecidableEq

/-- One struct field as reflection presents it to populateStructFields:
its name, whether reflection can set it, its konfig tag, its default tag,
its kind, and its current value. -/
structure GoField where
  name : String
  settable : Bool
  tag : String
  defTag : String
  kind : FieldKind
  value : FieldVal
deriving Repr, DecidableEq

/-- setFieldValue (konfig.go) for the modelled scalar kinds: the string to
convert is the rendered config value when the key is present and non-nil,
the default tag otherwise; an empty string means leave the field untouched;
otherwise coerce per the field's declared kind, failing with a conversion
error on malformed input. -/
def setFieldValue (c : List (String × GoValue)) (f : GoField)
    (configKey defaultValue : String) : Except String GoField :=
  let strValue :=
    match Get c configKey with
    | some v => if isNil v then defaultValue else goToStr v
    | none => defaultValue
  if strValue = "" then .ok f
  else
    match f.kind with
    | .fString => .ok { f with value := .sVal strValue }
    | .fInt =>
        match Atoi strValue with
        | some i => .ok { f with value := .iVal i }
        | none => .error "cannot convert to int"
    | .fBool =>
        match ParseBool strValue with
        | some b => .ok { f with value := .bVal b }
        | none => .error "cannot convert to bool"

/-- populateStructFields (konfig.go) on a record of the modelled scalar
fields: walk the fields in declaration order; skip fields reflection
cannot set and fields with no tag; otherwise bind the field from the
prefixed key via setFieldValue.  The first error stops the walk: the
fields already bound keep their new values, and the failing field and all
later fields keep their old values.  (In the Go source a nested record
field recurses instead of converting; the claims below concern the sibling
scalar fields of one record.) -/
def populateStructFields (c : List (String × GoValue)) (fields : List GoField)
    (pfx : String) : List GoField × Option String :=
  match fields with
  | [] => ([], none)
  | f :: rest =>
      if ¬ f.settable then
        (f :: (populateStructFields c rest pfx).1,
          (populateStructFields c rest pfx).2)
      else if f.tag = "" then
        (f :: (populateStructFields c rest pfx).1,
          (populateStructFields c rest pfx).2)
      else
        match setFieldValue c f
            (if pfx = "" then f.tag else pfx ++ "." ++ f.tag) f.defTag with
        | .ok f2 =>
            (f2 :: (populateStructFields c rest pfx).1,
              (populateStructFields c rest pfx).2)
        | .error e => (f :: rest, some e)

theorem populateStructFields_cons_not_settable (c : List (String × GoValue))
    (rest : List GoField) (pfx : String) {f : GoField}
    (hset : f.settable = false) :
    populateStructFields c (f :: rest) pfx =
      (f :: (populateStructFields c rest pfx).1,
        (populateStructFields c rest pfx).2) := by
  rw [populateStructFields.eq_def]
  simp [hset]

theorem populateStructFields_cons_no_tag (c : List (String × GoValue))
    (rest : List GoField) (pfx : String) {f : GoField}
    (hset : f.settable = true) (htag : f.tag = "") :
    populateStructFields c (f :: rest) pfx =
      (f :: (populateStructFields c rest pfx).1,
        (populateStructFields c rest pfx).2) := by
  rw [populateStructFields.eq_def]
  simp [hset, htag]

theorem populateStructFields_cons_ok (c : List (String × GoValue))
    (rest : List GoField) (pfx : String) {f f2 : GoField}
    (hset : f.settable = true) (htag : f.tag ≠ "")
    (hsf : setFieldValue c f
      (if pfx = "" then f.tag else pfx ++ "." ++ f.tag) f.defTag = .ok f2) :
    populateStructFields c (f :: rest) pfx =
      (f2 :: (populateStructFields c rest pfx).1,
        (populateStructFields c rest pfx).2) := by
  rw [populateStructFields.eq_def]
  simp [hset, htag, hsf]

theorem populateStructFields_cons_error (c : List (String × GoValue))
    (rest : List GoField) (pfx : String) {f : GoField} {e : String}
    (hset : f.settable = true) (htag : f.tag ≠ "")
    (hsf : setFieldValue c f
      (if pfx = "" then f.tag else pfx ++ "." ++ f.tag) f.defTag = .error e) :
    populateStructFields c (f :: rest) pfx = (f :: rest, some e) := by
  rw [populateStructFields.eq_def]
  simp [hset, htag, hsf]

/-- Claim C5: when binding stops with a coercion error on some field, every
field before it in declaration order holds exactly the value a successful
bind of the preceding fields alone assigns — earlier-bound siblings are
neither reset nor modified — the failing field and all later fields are
untouched, and the call reports the error. -/
theorem populateStructFields_partial_on_error
    (c : List (String × GoValue)) (fields : List GoField) (pfx : String)
    {out : List GoField} {e : String}
    (h : populateStructFields c fields pfx = (out, some e)) :
    ∃ i < fields.length,
      (populateStructFields c (fields.take i) pfx).2 = none ∧
      out = (populateStructFields c (fields.take i) pfx).1 ++ fields.drop i ∧
      (∃ f, fields.get? i = some f ∧ f.settable = true ∧ f.tag ≠ "" ∧
        setFieldValue c f (if pfx = "" then f.tag else pfx ++ "." ++ f.tag)
          f.defTag = .error e) := by
  induction fields generalizing out with
  | nil => simp [populateStructFields] at h
  | cons f rest ih =>
      cases hset : f.settable with
      | false =>
          rw [populateStructFields_cons_not_settable c rest pfx hset] at h
          simp only [Prod.mk.injEq] at h
          obtain ⟨hout, herr⟩ := h
          have hP : populateStructFields c rest pfx =
              ((populateStructFields c rest pfx).1, some e) := by
            rw [← herr]
          obtain ⟨i, hilen, hnone, hpre, g, hget, hgset, hgtag, hgerr⟩ := ih hP
          refine ⟨i + 1, by simp; omega, ?_, ?_, g, by simpa using hget,
            hgset, hgtag, hgerr⟩
          · rw [List.take_succ_cons,
              populateStructFields_cons_not_settable c _ pfx hset]
            exact hnone
          · rw [← hout, List.take_succ_cons, List.drop_succ_cons,
              populateStructFields_cons_not_settable c _ pfx hset]
            rw [show ((f :: (populateStructFields c (rest.take i) pfx).1,
                (populateStructFields c (rest.take i) pfx).2)).1 =
                f :: (populateStructFields c (rest.take i) pfx).1 from rfl]
            rw [List.cons_append, ← hpre]
      | true =>
          by_cases htag : f.tag = ""
          · rw [populateStructFields_cons_no_tag c rest pfx hset htag] at h
            simp only [Prod.mk.injEq] at h
            obtain ⟨hout, herr⟩ := h
            have hP : populateStructFields c rest pfx =
                ((populateStructFields c rest pfx).1, some e) := by
              rw [← herr]
            obtain ⟨i, hilen, hnone, hpre, g, hget, hgset, hgtag, hgerr⟩ := ih hP
            refine ⟨i + 1, by simp; omega, ?_, ?_, g, by simpa using hget,
              hgset, hgtag, hgerr⟩
            · rw [List.take_succ_cons,
                populateStructFields_cons_no_tag c _ pfx hset htag]
              exact hnone
            · rw [← hout, List.take_succ_cons, List.drop_succ_cons,
                populateStructFields_cons_no_tag c _ pfx hset htag]
              rw [show ((f :: (populateStructFields c (rest.take i) pfx).1,
                  (populateStructFields c (rest.take i) pfx).2)).1 =
                  f :: (populateStructFields c (rest.take i) pfx).1 from rfl]
              rw [List.cons_append, ← hpre]
          · cases hsf : setFieldValue c f
                (if pfx = "" then f.tag else pfx ++ "." ++ f.tag) f.defTag with
            | ok f2 =>
                rw [populateStructFields_cons_ok c rest pfx hset htag hsf] at h
                simp only [Prod.mk.injEq] at h
                obtain ⟨hout, herr⟩ := h
                have hP : populateStructFields c rest pfx =
                    ((populateStructFields c rest pfx).1, some e) := by
                  rw [← herr]
                obtain ⟨i, hilen, hnone, hpre, g, hget, hgset, hgtag, hgerr⟩ :=
                  ih hP
                refine ⟨i + 1, by simp; omega, ?_, ?_, g, by simpa using hget,
                  hgset, hgtag, hgerr⟩
                · rw [List.take_succ_cons,
                    populateStructFields_cons_ok c _ pfx hset htag hsf]
                  exact hnone
                · rw [← hout, List.take_succ_cons, List.drop_succ_cons,
                    populateStructFields_cons_ok c _ pfx hset htag hsf]
                  rw [show ((f2 :: (populateStructFields c (rest.take i) pfx).1,
                      (populateStructFields c (rest.take i) pfx).2)).1 =
                      f2 :: (populateStructFields c (rest.take i) pfx).1 from rfl]
                  rw [List.cons_append, ← hpre]
            | error e2 =>
                rw [populateStructFields_cons_error c rest pfx hset htag hsf] at h
                simp only [Prod.mk.injEq, Option.some.injEq] at h
                obtain ⟨hout, herr⟩ := h
                subst herr
                refine ⟨0, by simp, by simp [populateStructFields], ?_,
                  f, by simp, hset, htag, hsf⟩
                simp [populateStructFields, ← hout]

/-- Namespace used by the binding witness: an integer at key a and a value
at key b that fails bool coercion. -/
def bindSampleConfig : List (String × GoValue) :=
  [("a", GoValue.vStr "5"), ("b", GoValue.vStr "notabool")]

/-- Record used by the binding witness: an int field tagged a declared
before a bool field tagged b. -/
def bindSampleFields : List GoField :=
  [{ name := "Port", settable := true, tag := "a", defTag := "",
     kind := .fInt, value := .iVal 0 },
   { name := "Debug", settable := true, tag := "b", defTag := "",
     kind := .fBool, value := .bVal false }]

/-- Witness for C5: binding fails on the second field (bool coercion of
notabool), the first field keeps its freshly bound value 5, and the failing
field keeps its old value. -/
theorem populateStructFields_partial_on_error_witness :
    populateStructFields bindSampleConfig bindSampleFields "" =
      ([{ name := "Port", settable := true, tag := "a", defTag := "",
          kind := .fInt, value := .iVal 5 },
        { name := "Debug", settable := true, tag := "b", defTag := "",
          kind := .fBool, value := .bVal false }],
       some "cannot convert to bool") ∧
    (∃ i < bindSampleFields.length,
      (populateStructFields bindSampleConfig (bindSampleFields.take i) "").2 =
        none ∧
      ([{ name := "Port", settable := true, tag := "a", defTag := "",
          kind := .fInt, value := .iVal 5 },
        { name := "Debug", settable := true, tag := "b", defTag := "",
          kind := .fBool, value := .bVal false }] : List GoField) =
        (populateStructFields bindSampleConfig (bindSampleFields.take i) "").1 ++
          bindSampleFields.drop i ∧
      (∃ f, bindSampleFields.get? i = some f ∧ f.settable = true ∧
        f.tag ≠ "" ∧
        setFieldValue bindSampleConfig f
          (if ("" : String) = "" then f.tag else "" ++ "." ++ f.tag) f.defTag =
          .error "cannot convert to bool")) := by
  have h1 : goToStr (GoValue.vStr "5") = "5" := by simp [goToStr]
  have h2 : goToStr (GoValue.vStr "notabool") = "notabool" := by simp [goToStr]
  have hAtoi : Atoi "5" = some 5 := by decide
  have hPB : ParseBool "notabool" = none := by decide
  have h : populateStructFields bindSampleConfig bindSampleFields "" =
      ([{ name := "Port", settable := true, tag := "a", defTag := "",
          kind := .fInt, value := .iVal 5 },
        { name := "Debug", settable := true, tag := "b", defTag := "",
          kind := .fBool, value := .bVal false }],
       some "cannot convert to bool") := by
    simp [populateStructFields, setFieldValue, Get, mapLookup, isNil,
      bindSampleConfig, bindSampleFields, h1, h2, hAtoi, hPB]
    decide
  exact ⟨h,
    populateStructFields_partial_on_error bindSampleConfig bindSampleFields "" h⟩

end Konfig
